import Mathlib

/-! ### Character-list utilities

Models of the Go strings-package operations used by pkg/client.go:
strings.Replace (with count -1) and substring containment.  Bodies and
string values are modelled as lists of characters. -/

/-- Boolean test that pat occurs at the start of s (byte-wise equality,
matching Go string comparison for the ASCII data these claims use). -/
def isPre : List Char → List Char → Bool
  | [], _ => true
  | _ :: _, [] => false
  | a :: as, b :: bs => a == b && isPre as bs

/-- Propositional form of isPre. -/
def IsPre (pat s : List Char) : Prop := ∃ t, pat ++ t = s

/-- Substring occurrence: pat occurs contiguously somewhere inside s. -/
def ContainsSub (pat s : List Char) : Prop := ∃ a b, s = a ++ pat ++ b

/-- Boolean substring test. -/
def hasSub (pat : List Char) : List Char → Bool
  | [] => pat.isEmpty
  | c :: rest => isPre pat (c :: rest) || hasSub pat rest

/-- Go strings.Replace(s, old, new, -1) core loop for nonempty old:
scan left to right, replacing each non-overlapping occurrence of old
with new. -/
def goReplaceCore (old new : List Char) : List Char → List Char
  | [] => []
  | c :: rest =>
    if old ≠ [] ∧ isPre old (c :: rest) then
      new ++ goReplaceCore old new (rest.drop (old.length - 1))
    else
      c :: goReplaceCore old new rest
  termination_by l => l.length
  decreasing_by
  · simp only [List.length_drop, List.length_cons]
    omega
  · simp

/-- Go strings.Replace(s, "", new, -1): new is inserted before every
character and after the last one. -/
def replaceEmpty (new : List Char) : List Char → List Char
  | [] => new
  | c :: rest => new ++ c :: replaceEmpty new rest

/-- Go strings.Replace(s, old, new, -1). -/
def goReplace (s old new : List Char) : List Char :=
  if old = [] then replaceEmpty new s else goReplaceCore old new s

/-! ### JSON data model

A model of the Go values produced by encoding/json.Unmarshal into an
untyped interface: null, booleans, numbers, strings, arrays
([]interface) and objects (map[string]interface).  Objects are kept as
association lists with unique keys sorted by key, which realises both
the Go map semantics (later duplicate keys win, insertion order is
irrelevant) and the key-sorted output of json.MarshalIndent.  Numbers
keep their source lexeme; the float64 round-trip that Go performs is
not modelled, and no claim touches numeric values. -/

inductive Json where
  | null
  | bool (b : Bool)
  | num (lit : String)
  | str (s : String)
  | arr (elems : List Json)
  | obj (fields : List (String × Json))
deriving Repr

/-- Byte-wise lexicographic comparison of character lists; on the
UTF-8 data of Go strings this is exactly the Go string order, since
UTF-8 preserves code-point order. -/
def charListLt : List Char → List Char → Bool
  | [], [] => false
  | [], _ :: _ => true
  | _ :: _, [] => false
  | a :: as, b :: bs => a.toNat < b.toNat || (a == b && charListLt as bs)

/-- Lexicographic string comparison, the order of Go sort.Strings. -/
def strLt (a b : String) : Bool := charListLt a.data b.data

/-- Reflexive string comparison. -/
def strLe (a b : String) : Bool := !strLt b a

/-- ASCII lowercasing of one character, agreeing with Go
strings.ToLower on the ASCII header names of this program. -/
def charToLower (c : Char) : Char :=
  if 'A' ≤ c ∧ c ≤ 'Z' then Char.ofNat (c.toNat + 32) else c

/-- ASCII lowercasing of a string. -/
def strToLower (s : String) : String := String.mk (s.data.map charToLower)

/-- Lookup of a key in an object, modelling Go map indexing. -/
def objGet : List (String × Json) → String → Option Json
  | [], _ => none
  | (k2, v2) :: rest, k => if k2 = k then some v2 else objGet rest k

/-- Update or insert of a key, modelling Go map assignment on the
sorted-unique representation. -/
def objSet : List (String × Json) → String → Json → List (String × Json)
  | [], k, v => [(k, v)]
  | (k2, v2) :: rest, k, v =>
    if k = k2 then (k, v) :: rest
    else if strLt k k2 then (k, v) :: (k2, v2) :: rest
    else (k2, v2) :: objSet rest k v

/-! ### JSON parser

A fuel-indexed recursive-descent parser for the JSON grammar accepted
by encoding/json: ws-separated values, strings with the standard
escapes, numbers with the JSON number grammar, arrays and objects.
Inputs it rejects are exactly the inputs on which Unmarshal reports a
syntax error (modulo the non-BMP escape pairs and invalid UTF-8, which
no claim exercises). -/

/-- Left brace character, kept as a named constant. -/
def lbrace : Char := Char.ofNat 123

/-- Right brace character, kept as a named constant. -/
def rbrace : Char := Char.ofNat 125

/-- JSON whitespace skipping (space, tab, newline, carriage return). -/
def skipWs : List Char → List Char
  | [] => []
  | c :: rest =>
    if c = ' ' ∨ c = '\t' ∨ c = '\n' ∨ c = '\r' then skipWs rest else c :: rest

/-- Value of a hexadecimal digit. -/
def hexVal (c : Char) : Option Nat :=
  if '0' ≤ c ∧ c ≤ '9' then some (c.toNat - 48)
  else if 'a' ≤ c ∧ c ≤ 'f' then some (c.toNat - 87)
  else if 'A' ≤ c ∧ c ≤ 'F' then some (c.toNat - 55)
  else none

/-- Single-character string escapes. -/
def escMap (e : Char) : Option Char :=
  if e = '"' then some '"'
  else if e = '\\' then some '\\'
  else if e = '/' then some '/'
  else if e = 'b' then some (Char.ofNat 8)
  else if e = 'f' then some (Char.ofNat 12)
  else if e = 'n' then some '\n'
  else if e = 'r' then some '\r'
  else if e = 't' then some '\t'
  else none

/-- Parses the body of a JSON string after the opening quote, returning
the decoded characters and the remainder after the closing quote. -/
def parseStringBody : List Char → Option (List Char × List Char)
  | [] => none
  | c :: rest =>
    if c = '"' then some ([], rest)
    else if c = '\\' then
      match rest with
      | [] => none
      | e :: rest2 =>
        if e = 'u' then
          match rest2 with
          | h1 :: h2 :: h3 :: h4 :: rest3 =>
            match hexVal h1, hexVal h2, hexVal h3, hexVal h4 with
            | some a, some b, some c2, some d =>
              match parseStringBody rest3 with
              | some (content, r) =>
                some (Char.ofNat (4096 * a + 256 * b + 16 * c2 + d) :: content, r)
              | none => none
            | _, _, _, _ => none
          | _ => none
        else
          match escMap e with
          | some ch =>
            match parseStringBody rest2 with
            | some (content, r) => some (ch :: content, r)
            | none => none
          | none => none
    else if c.toNat < 32 then none
    else
      match parseStringBody rest with
      | some (content, r) => some (c :: content, r)
      | none => none

/-- Takes the longest run of decimal digits. -/
def digitRun : List Char → List Char × List Char
  | [] => ([], [])
  | c :: rest =>
    if '0' ≤ c ∧ c ≤ '9' then
      let p := digitRun rest
      (c :: p.1, p.2)
    else ([], c :: rest)

/-- Optional fraction part of a JSON number. -/
def fracPart : List Char → Option (List Char × List Char)
  | [] => some ([], [])
  | c :: r =>
    if c = '.' then
      match digitRun r with
      | ([], _) => none
      | (ds, rr) => some ('.' :: ds, rr)
    else some ([], c :: r)

/-- Optional exponent part of a JSON number. -/
def expPart : List Char → Option (List Char × List Char)
  | [] => some ([], [])
  | c :: r =>
    if c = 'e' ∨ c = 'E' then
      let sr : List Char × List Char :=
        match r with
        | s :: rr => if s = '+' ∨ s = '-' then ([s], rr) else ([], r)
        | [] => ([], [])
      match digitRun sr.2 with
      | ([], _) => none
      | (ds, rr) => some (c :: (sr.1 ++ ds), rr)
    else some ([], c :: r)

/-- Parses a JSON number, keeping its lexeme. -/
def parseNumber (cs : List Char) : Option (Json × List Char) :=
  let sc : List Char × List Char :=
    match cs with
    | c :: r => if c = '-' then ([c], r) else ([], cs)
    | [] => ([], [])
  match digitRun sc.2 with
  | ([], _) => none
  | (ip, r1) =>
    if 1 < ip.length ∧ ip.head? = some '0' then none
    else
      match fracPart r1 with
      | none => none
      | some (fp, r2) =>
        match expPart r2 with
        | none => none
        | some (ep, r3) => some (.num (String.mk (sc.1 ++ ip ++ fp ++ ep)), r3)

mutual

/-- Parses one JSON value, fuel-indexed. -/
def parseValue : Nat → List Char → Option (Json × List Char)
  | 0, _ => none
  | Nat.succ fuel, cs =>
    match skipWs cs with
    | [] => none
    | c :: rest =>
      if c = 'n' then
        if isPre ['u', 'l', 'l'] rest then some (.null, rest.drop 3) else none
      else if c = 't' then
        if isPre ['r', 'u', 'e'] rest then some (.bool true, rest.drop 3) else none
      else if c = 'f' then
        if isPre ['a', 'l', 's', 'e'] rest then some (.bool false, rest.drop 4) else none
      else if c = '"' then
        match parseStringBody rest with
        | some (content, r) => some (.str (String.mk content), r)
        | none => none
      else if c = '-' ∨ ('0' ≤ c ∧ c ≤ '9') then parseNumber (c :: rest)
      else if c = '[' then
        match skipWs rest with
        | ']' :: r2 => some (.arr [], r2)
        | r => match parseElems fuel r with
          | some (es, r2) => some (.arr es, r2)
          | none => none
      else if c = lbrace then
        match skipWs rest with
        | r =>
          match r with
          | c2 :: r2 => if c2 = rbrace then some (.obj [], r2) else
            match parseFields fuel [] (c2 :: r2) with
            | some (fs, r3) => some (.obj fs, r3)
            | none => none
          | [] => none
      else none

/-- Parses the comma-separated elements of a nonempty array, up to and
including the closing bracket. -/
def parseElems : Nat → List Char → Option (List Json × List Char)
  | 0, _ => none
  | Nat.succ fuel, cs =>
    match parseValue fuel cs with
    | none => none
    | some (v, r) =>
      match skipWs r with
      | ',' :: r2 =>
        match parseElems fuel r2 with
        | some (vs, r3) => some (v :: vs, r3)
        | none => none
      | ']' :: r2 => some ([v], r2)
      | _ => none

/-- Parses the members of a nonempty object, up to and including the
closing brace, folding them into the accumulator so that later
duplicate keys win, as with Go map assignment. -/
def parseFields : Nat → List (String × Json) → List Char → Option (List (String × Json) × List Char)
  | 0, _, _ => none
  | Nat.succ fuel, acc, cs =>
    match skipWs cs with
    | '"' :: r =>
      match parseStringBody r with
      | none => none
      | some (key, r2) =>
        match skipWs r2 with
        | ':' :: r3 =>
          match parseValue fuel r3 with
          | none => none
          | some (v, r4) =>
            match skipWs r4 with
            | c5 :: r5 =>
              if c5 = ',' then parseFields fuel (objSet acc (String.mk key) v) r5
              else if c5 = rbrace then some (objSet acc (String.mk key) v, r5)
              else none
            | [] => none
        | _ => none
    | _ => none

end

/-- Model of encoding/json.Unmarshal into an untyped interface value:
parses one value and requires only whitespace to follow. -/
def parseJson (cs : List Char) : Option Json :=
  match parseValue (2 * cs.length + 2) cs with
  | some (j, rest) => if skipWs rest = [] then some j else none
  | none => none

/-! ### JSON pretty-printer

Model of json.MarshalIndent(v, "", "  ") as called by FormatJSON:
two-space indentation, object keys emitted in sorted order (the
representation is already key-sorted), strings escaped with the
default HTML-escaping encoder. -/

/-- Lowercase hexadecimal digit. -/
def hexDigitChar (n : Nat) : Char :=
  if n < 10 then Char.ofNat (48 + n) else Char.ofNat (87 + n)

/-- Escaping of one character, as the default encoding/json encoder
does (HTML escaping enabled). -/
def escChar (c : Char) : List Char :=
  if c = '"' then ['\\', '"']
  else if c = '\\' then ['\\', '\\']
  else if c = '\n' then ['\\', 'n']
  else if c = '\r' then ['\\', 'r']
  else if c = '\t' then ['\\', 't']
  else if c = '<' then '\\' :: 'u' :: ['0', '0', '3', 'c']
  else if c = '>' then '\\' :: 'u' :: ['0', '0', '3', 'e']
  else if c = '&' then '\\' :: 'u' :: ['0', '0', '2', '6']
  else if c.toNat < 32 then
    '\\' :: 'u' :: '0' :: '0' :: hexDigitChar (c.toNat / 16) :: [hexDigitChar (c.toNat % 16)]
  else if c.toNat = 8232 then '\\' :: 'u' :: ['2', '0', '2', '8']
  else if c.toNat = 8233 then '\\' :: 'u' :: ['2', '0', '2', '9']
  else [c]

/-- Escaping of a character list. -/
def escapeChars (s : List Char) : List Char := (s.map escChar).flatten

/-- Indentation for nesting depth n. -/
def indentChars (n : Nat) : List Char := List.replicate (2 * n) ' '

mutual

/-- Rendering of one JSON value at nesting depth n, without leading
indentation, as json.MarshalIndent does. -/
def marshalVal : Json → Nat → List Char
  | .null, _ => ['n', 'u', 'l', 'l']
  | .bool true, _ => ['t', 'r', 'u', 'e']
  | .bool false, _ => ['f', 'a', 'l', 's', 'e']
  | .num l, _ => l.data
  | .str s, _ => '"' :: (escapeChars s.data ++ ['"'])
  | .arr [], _ => ['[', ']']
  | .arr (e :: es), n =>
    '[' :: '\n' :: (marshalItems (e :: es) (n + 1) ++ '\n' :: (indentChars n ++ [']']))
  | .obj [], _ => [lbrace, rbrace]
  | .obj (f :: fs), n =>
    lbrace :: '\n' :: (marshalFields (f :: fs) (n + 1) ++ '\n' :: (indentChars n ++ [rbrace]))

/-- Rendering of array elements, comma-and-newline separated. -/
def marshalItems : List Json → Nat → List Char
  | [], _ => []
  | [e], n => indentChars n ++ marshalVal e n
  | e :: e2 :: es, n =>
    indentChars n ++ (marshalVal e n ++ ',' :: '\n' :: marshalItems (e2 :: es) n)

/-- Rendering of object members, comma-and-newline separated. -/
def marshalFields : List (String × Json) → Nat → List Char
  | [], _ => []
  | [(k, v)], n =>
    indentChars n ++ ('"' :: (escapeChars k.data ++ '"' :: ':' :: ' ' :: marshalVal v n))
  | (k, v) :: f2 :: fs, n =>
    indentChars n ++
      ('"' :: (escapeChars k.data ++ '"' :: ':' :: ' ' :: marshalVal v n)) ++
      ',' :: '\n' :: marshalFields (f2 :: fs) n

end

/-! ### The redactor

Translation of FormatJSON (pkg/client.go lines 295-370).  The three
masking blocks become three functions composed in the source order.
The re-marshal error branch of the source cannot trigger for values
produced by Unmarshal (maps, slices and scalars always marshal), so
marshalling is total here. -/

/-- The mask token written over sensitive values. -/
def maskStr : Json := .str "***"

/-- Masking of one path of object keys: descend through objects along
the path and write the mask token over the final key.  With req true
the final write happens only when the key is already present (the Go
blocks that first test for presence); with req false the write is
unconditional, as the direct v[key] assignments of the source.  Each
block of FormatJSON that masks a fixed path is an instance. -/
def maskAtPath (fs : List (String × Json)) : List String → Bool → List (String × Json)
  | [], _ => fs
  | [k], req =>
    if req then
      match objGet fs k with
      | some _ => objSet fs k maskStr
      | none => fs
    else objSet fs k maskStr
  | k :: k2 :: rest, req =>
    match objGet fs k with
    | some (.obj inner) => objSet fs k (.obj (maskAtPath inner (k2 :: rest) req))
    | _ => fs

/-- First step of the inner credentials masking (pkg/client.go lines
340-344): when access is present, capture its original string value
(empty when the value is not a string, exactly as the Go type
assertion with discarded ok leaves it) and overwrite it with the mask
token. -/
def credAccessStep (c : List (String × Json)) : String × List (String × Json) :=
  match objGet c "access" with
  | some v =>
    (match v with
     | .str s => s
     | _ => "",
     objSet c "access" maskStr)
  | none => ("", c)

/-- Second step of the inner credentials masking (pkg/client.go lines
345-347): mask body_hash when present. -/
def credBodyHashStep (c : List (String × Json)) : List (String × Json) :=
  match objGet c "body_hash" with
  | some _ => objSet c "body_hash" maskStr
  | none => c

/-- Third step of the inner credentials masking (pkg/client.go lines
348-354): when headers is an object whose Authorization value is a
string, replace every occurrence of the captured access value in it
with the mask token. -/
def credHeadersStep (access : String) (c : List (String × Json)) : List (String × Json) :=
  match objGet c "headers" with
  | some (.obj h) =>
    match objGet h "Authorization" with
    | some (.str s) =>
      objSet c "headers"
        (.obj (objSet h "Authorization"
          (.str (String.mk (goReplace s.data access.data ['*', '*', '*'])))))
    | _ => c
  | _ => c

/-- Translation of the inner credentials masking (pkg/client.go lines
339-355), composing the three steps in source order. -/
def maskCredentialsInner (c : List (String × Json)) : List (String × Json) :=
  let ac := credAccessStep c
  credHeadersStep ac.1 (credBodyHashStep ac.2)

/-- Translation of the credentials-section block (pkg/client.go lines
338-355): applies the inner masking when the top-level credentials
value is an object. -/
def maskCredentials (data : List (String × Json)) : List (String × Json) :=
  match objGet data "credentials" with
  | some (.obj c) => objSet data "credentials" (.obj (maskCredentialsInner c))
  | _ => data

/-- The composed masking pass of FormatJSON over a top-level object, in
source order: the five auth-section paths (lines 313-336), the
credentials section (lines 338-355), then token.catalog (lines
357-362).  Sequencing the paths is equivalent to the nested in-place
map mutation of the source, because each step only rewrites the value
at its own keys and keeps intermediate values objects. -/
def maskKnownFields (data : List (String × Json)) : List (String × Json) :=
  let d1 := maskAtPath data ["auth", "passwordCredentials", "password"] false
  let d2 := maskAtPath d1 ["auth", "token", "id"] false
  let d3 := maskAtPath d2 ["auth", "identity", "password", "user", "password"] false
  let d4 := maskAtPath d3 ["auth", "identity", "application_credential", "secret"] false
  let d5 := maskAtPath d4 ["auth", "identity", "token", "id"] false
  let d6 := maskCredentials d5
  maskAtPath d6 ["token", "catalog"] true

/-- Model of FormatJSON (pkg/client.go lines 295-370): parse, mask a
top-level object, pretty-print; on a parse failure return the raw
input together with the signalled error. -/
def FormatJSONModel (raw : List Char) : String × Option String :=
  match parseJson raw with
  | none => (String.mk raw, some "unable to parse JSON")
  | some (.obj data) => (String.mk (marshalVal (.obj (maskKnownFields data)) 0), none)
  | some j => (String.mk (marshalVal j 0), none)

/-- Lookup along a path of object keys. -/
def getPath (j : Json) : List String → Option Json
  | [] => some j
  | k :: rest =>
    match j with
    | .obj fs =>
      match objGet fs k with
      | some v => getPath v rest
      | none => none
    | _ => none

/-! ### Header masking

Model of hideSensitiveHeadersData, formatHeaders and
SetSensitiveHeaders (pkg/client.go lines 64-150).  A header set is an
association of names to value lists; the sensitive set is the key set
of the Go map, modelled as a list of strings with membership by string
equality.  Go sort.Strings and strings.ToLower agree with the Lean
counterparts on the ASCII header data of this program. -/

/-- The default list of headers that contain sensitive data
(pkg/client.go lines 64-76). -/
def defaultSensitiveHeaders : List String :=
  ["x-auth-token", "x-auth-key", "x-service-token", "x-storage-token",
   "x-account-meta-temp-url-key", "x-account-meta-temp-url-key-2",
   "x-container-meta-temp-url-key", "x-container-meta-temp-url-key-2",
   "set-cookie", "x-subject-token", "authorization"]

/-- Model of SetSensitiveHeaders (pkg/client.go lines 92-101): the
given names become the new sensitive set verbatim, with no case
normalisation. -/
def setSensitiveHeaders (headers : List String) : List String := headers

/-- Rendering of one header line: the name is lowercased and looked up
in the sensitive set; on a hit the value is replaced by the mask token
(pkg/client.go lines 130-137). -/
def renderHeader (maskHeaders : List String) (h : String × List String) : String :=
  if maskHeaders.contains (strToLower h.1) then h.1 ++ ": ***"
  else h.1 ++ ": " ++ String.intercalate " " h.2

/-- Model of hideSensitiveHeadersData (pkg/client.go lines 119-141). -/
def hideSensitiveHeadersData (maskHeaders : List String)
    (headers : List (String × List String)) : List String :=
  headers.map (renderHeader maskHeaders)

/-- Insertion of a string into a sorted list, keeping the order of Go
sort.Strings. -/
def insertSorted (x : String) : List String → List String
  | [] => [x]
  | y :: rest => if strLe x y then x :: y :: rest else y :: insertSorted x rest

/-- Sorting of the redacted header lines, modelling sort.Strings
(which, on a list of strings, has the unique sorted permutation as its
result). -/
def sortStrings : List String → List String
  | [] => []
  | x :: rest => insertSorted x (sortStrings rest)

/-- Model of formatHeaders (pkg/client.go lines 145-150): redact, sort
lexicographically, join with the separator. -/
def formatHeaders (maskHeaders : List String) (headers : List (String × List String))
    (separator : String) : String :=
  String.intercalate separator
    (sortStrings (hideSensitiveHeadersData maskHeaders headers))

/-! ### The retry loop of RoundTrip

Model of the delegation-and-retry portion of RoundTrip (pkg/client.go
lines 191-209).  The underlying transport is a function from the
zero-based index of the delegation call to the pair (optional
response, error string); a nil response triggers a retry.  The model
returns the outcome, the list of logged retry entries (attempt number
and prior error, as logged by the retry ResponsePrintf), and the
number of delegation calls made. -/

/-- An HTTP response, abstracted to its status code. -/
structure HttpResp where
  statusCode : Nat
deriving Repr, DecidableEq

/-- The distinct error produced when retries exhaust, wrapping the last
underlying error (pkg/client.go line 200). -/
def exhaustedMsg (lastErr : String) : String :=
  "Connection error, retries exhausted. Aborting. Last error was: " ++ lastErr

/-- Result of the modelled round-trip retry loop. -/
structure RTResult where
  outcome : Except String HttpResp
  retryLog : List (Nat × String)
  calls : Nat
deriving Repr

/-- The retry loop body (pkg/client.go lines 194-209): cur is the
outcome of the latest delegation call, r the retry counter, lg the
retry log so far, calls the number of delegation calls made. -/
def rtGo (maxRetries : Nat) (att : Nat → Option HttpResp × String) :
    Nat → Option HttpResp × String → List (Nat × String) → Nat → RTResult
  | r, cur, lg, calls =>
    match cur.1 with
    | some resp => ⟨.ok resp, lg, calls⟩
    | none =>
      if maxRetries < r then ⟨.error (exhaustedMsg cur.2), lg, calls⟩
      else rtGo maxRetries att (r + 1) (att calls) (lg ++ [(r, cur.2)]) (calls + 1)
  termination_by r _ _ _ => maxRetries + 1 - r

/-- Model of the delegation portion of RoundTrip (pkg/client.go lines
191-209): one initial call, then the retry loop starting at retry
counter 1. -/
def roundTripRetries (maxRetries : Nat) (att : Nat → Option HttpResp × String) : RTResult :=
  rtGo maxRetries att 1 (att 0) [] 1

/-! ### Body logger

Model of logRequest and logResponse (pkg/client.go lines 223-272).  A
body stream either yields its full contents or fails partway with an
error; io.Copy into the buffer surfaces exactly that.  On an
intercepted content type the original is drained and closed (the defer
fires on both paths) and a fresh reader over the buffered bytes is
returned, so the payload forwarded to the transport is byte-for-byte
the original.  On a read failure the error is returned and the
round-trip aborts. -/

/-- A readable body: either full contents, or contents that fail with
an error after a partial read. -/
inductive BodyStream where
  | chunks (bs : List Char)
  | failAfter (bs : List Char) (e : String)
deriving Repr, DecidableEq

/-- Model of io.Copy from the body into a buffer: all bytes, or the
read error. -/
def ioCopyModel : BodyStream → Except String (List Char)
  | .chunks bs => .ok bs
  | .failAfter _ e => .error e

/-- Content types intercepted for request bodies (pkg/client.go line
225). -/
def isJsonRequestCT (ct : String) : Bool :=
  isPre "application/json".data ct.data ||
    (isPre "application/".data ct.data && isPre "hctap-nosj-".data ct.data.reverse)

/-- Content types intercepted for response bodies (pkg/client.go line
250). -/
def isJsonResponseCT (ct : String) : Bool :=
  isPre "application/json".data ct.data

/-- Result of running a body through the logger. -/
structure LogBodyResult where
  returned : Except String BodyStream
  originalClosed : Bool
  logged : List String
deriving Repr

/-- Model of logRequest (pkg/client.go lines 223-245). -/
def logRequestModel (contentType : String) (original : BodyStream) : LogBodyResult :=
  if isJsonRequestCT contentType then
    match ioCopyModel original with
    | .error e => ⟨.error e, true, []⟩
    | .ok bs =>
      let fj := FormatJSONModel bs
      ⟨.ok (.chunks bs), true,
        (match fj.2 with
         | some e => [e]
         | none => []) ++ ["Body: " ++ fj.1]⟩
  else ⟨.ok original, false, ["Not logging because request body isn't JSON"]⟩

/-- Model of logResponse (pkg/client.go lines 249-272): as logRequest
but with the response content-type test and the empty-body log
suppression. -/
def logResponseModel (contentType : String) (original : BodyStream) : LogBodyResult :=
  if isJsonResponseCT contentType then
    match ioCopyModel original with
    | .error e => ⟨.error e, true, []⟩
    | .ok bs =>
      let fj := FormatJSONModel bs
      ⟨.ok (.chunks bs), true,
        (match fj.2 with
         | some e => [e]
         | none => []) ++
        (if fj.1 = "" then [] else ["Body: " ++ fj.1])⟩
  else ⟨.ok original, false, ["Not logging because response body isn't JSON"]⟩

/-! ### Load harness

Models of the continuous-load machinery of the command variants: the
limiter-bounded dispatch loop (part_001 lines 185-190 and the worker
body at lines 114-149), the statistics counters with the one-second
reporter (part_001 lines 108-113 and 156-183, part_000 lines 108-125),
and the part_000 worker body (part_000 lines 83-105). -/

/-- uint64 modulus: the counters of the harness are Go uint64 values
and wrap at this bound. -/
def u64Mod : Nat := 2 ^ 64

/-- Worker outcome of one authentication attempt in the harness. -/
inductive WorkerOutcome where
  | completed
  | panicked
deriving Repr, DecidableEq

/-- Per-process counters shared by the workers, before the reporter
totals are added (ops and fps). -/
structure WStats where
  ops : Nat
  fps : Nat
deriving Repr, DecidableEq

/-- The result of pkg.OpenStackEC2Auth (pkg/main.go lines 16-43): a
non-nil result on success, a nil result with an error on failure. -/
structure AuthResult where
  username : String
  project : String
  tokenID : String
deriving Repr, DecidableEq

/-- Model of the part_000 worker body in continuous mode (part_000
lines 83-105, limiter non-nil).  The result pointer res is nil exactly
when the call failed; the error path does not return, so with debug
set the worker evaluates res.Username on a nil pointer, which panics
and kills the whole process. -/
def auth000cont (debug : Bool) (r : Except String AuthResult) (st : WStats) :
    WStats × WorkerOutcome :=
  let st1 : WStats := { st with ops := (st.ops + 1) % u64Mod }
  match r with
  | .error _ =>
    let st2 : WStats := { st1 with fps := (st1.fps + 1) % u64Mod }
    if debug then (st2, .panicked)
    else (st2, .completed)
  | .ok _ => (st1, .completed)

/-- Model of the part_001 worker body in continuous mode (part_001
lines 114-149, limiter non-nil): the error path updates the failure
counter and, with show-error set, the per-category tally, then
releases the limiter slot and returns. -/
def auth001cont (_debug showErr : Bool) (r : Except String AuthResult)
    (st : WStats) (errs : List (String × Nat)) :
    WStats × List (String × Nat) × WorkerOutcome :=
  let st1 : WStats := { st with ops := (st.ops + 1) % u64Mod }
  match r with
  | .error e =>
    let st2 : WStats := { st1 with fps := (st1.fps + 1) % u64Mod }
    let errs2 := if showErr then
        match errs.lookup e with
        | some n => (errs.map (fun p => if p.1 = e then (p.1, (n + 1) % u64Mod) else p))
        | none => errs ++ [(e, 1)]
      else errs
    (st2, errs2, .completed)
  | .ok _ => (st1, errs, .completed)

/-! #### Limiter transition system

The dispatch loop of part_001 (lines 185-190) sends one token into the
buffered limiter channel (capacity = threads) and then spawns a
worker; each worker receives one token from the channel when it
completes.  The states record the channel occupancy, the number of
spawned-but-not-completed workers, and whether the loop is between its
send and its spawn. -/

/-- A state of the continuous-load harness. -/
structure HState where
  chanLen : Nat
  running : Nat
  pending : Bool
deriving Repr, DecidableEq

/-- The transitions of the harness with limiter capacity T: the main
loop sends into the limiter (blocking unless occupancy is below T),
then spawns the worker; a running worker completes by receiving one
token from the limiter. -/
inductive HStep (T : Nat) : HState → HState → Prop
  | send (s : HState) : s.pending = false → s.chanLen < T →
      HStep T s ⟨s.chanLen + 1, s.running, true⟩
  | spawn (s : HState) : s.pending = true →
      HStep T s ⟨s.chanLen, s.running + 1, false⟩
  | finish (s : HState) : 0 < s.running → 0 < s.chanLen →
      HStep T s ⟨s.chanLen - 1, s.running - 1, s.pending⟩

/-- The initial state: empty limiter, no workers. -/
def HInit : HState := ⟨0, 0, false⟩

/-- States reachable by the harness from the start of continuous
mode. -/
inductive HReach (T : Nat) : HState → Prop
  | init : HReach T HInit
  | step (s s' : HState) : HReach T s → HStep T s s' → HReach T s'

/-! #### Statistics and reporter

The counters ops, fps, totalReq and totalErr of part_001 (lines
108-113) are uint64 values updated with atomic adds and swaps; the
reporter (lines 156-183) fires each second, swaps the window counters
to zero, accumulates them into the totals and computes the failure
percentages.  An execution is a list of atomic events; each worker
contributes one ops increment and, on failure, one fps increment. -/

/-- One atomic event of a continuous-load execution. -/
inductive LEvent where
  | opsInc
  | fpsInc
  | tick
deriving Repr, DecidableEq

/-- The shared counter state. -/
structure LStat where
  ops : Nat
  fps : Nat
  totalReq : Nat
  totalErr : Nat
deriving Repr, DecidableEq

/-- Percentage computation of the reporter (part_001 lines 164-170,
part_000 lines 115-118): Go *uint64* arithmetic, so the product wraps
at 2^64; the value stays 0 when the attempt count is zero. -/
def percent (f s : Nat) : Nat := if 0 < s then 100 * f % u64Mod / s else 0

/-- One reporter observation: the captured window counts, the new
totals, and the two logged percentages. -/
structure TickObs where
  s : Nat
  f : Nat
  tS : Nat
  tF : Nat
  perc : Nat
  tPerc : Nat
deriving Repr, DecidableEq

/-- One step of the counter state machine (part_001): increments are
atomic adds, a tick is the reporter body of lines 157-182. -/
def lstep : LStat → LEvent → LStat × Option TickObs
  | st, .opsInc => ({ st with ops := (st.ops + 1) % u64Mod }, none)
  | st, .fpsInc => ({ st with fps := (st.fps + 1) % u64Mod }, none)
  | st, .tick =>
    let f := st.fps
    let s := st.ops
    let tS := (st.totalReq + s) % u64Mod
    let tF := (st.totalErr + f) % u64Mod
    (⟨0, 0, tS, tF⟩, some ⟨s, f, tS, tF, percent f s, percent tF tS⟩)

/-- The initial counters. -/
def initStat : LStat := ⟨0, 0, 0, 0⟩

/-- The sequence of states of an execution, including the initial
one. -/
def stateSeq (st : LStat) : List LEvent → List LStat
  | [] => [st]
  | e :: rest => st :: stateSeq (lstep st e).1 rest

/-- The reporter observations of an execution. -/
def runObs (st : LStat) : List LEvent → List TickObs
  | [] => []
  | e :: rest =>
    (match (lstep st e).2 with
     | some o => [o]
     | none => []) ++ runObs (lstep st e).1 rest

/-- Number of ops increments in an execution. -/
def countOps (evs : List LEvent) : Nat := evs.countP (fun e => e = .opsInc)

/-- Number of fps increments in an execution. -/
def countFps (evs : List LEvent) : Nat := evs.countP (fun e => e = .fpsInc)

/-- Path extension: a path q of object keys leads to (is an initial
segment of) a path p. -/
def Leads (q p : List String) : Prop := ∃ t, q ++ t = p

/-- Divergence of an observation path p from a masked path q: neither
is an initial segment of the other. -/
def Diverges (p q : List String) : Prop := ¬ Leads q p ∧ ¬ Leads p q

/-- Boolean form of Leads. -/
def isPreS : List String → List String → Bool
  | [], _ => true
  | _ :: _, [] => false
  | a :: as, b :: bs => a == b && isPreS as bs

instance (q p : List String) : Decidable (Leads q p) :=
  decidable_of_iff (isPreS q p = true) (by
    induction q generalizing p with
    | nil => simp [isPreS, Leads]
    | cons a as ih =>
      cases p with
      | nil =>
        simp only [isPreS, Leads]
        constructor
        · intro h; cases h
        · rintro ⟨t, ht⟩; cases ht
      | cons b bs =>
        simp only [isPreS, Bool.and_eq_true, beq_iff_eq]
        rw [ih bs]
        constructor
        · rintro ⟨rfl, t, rfl⟩
          exact ⟨t, rfl⟩
        · rintro ⟨t, ht⟩
          injection ht with h1 h2
          exact ⟨h1, t, h2⟩)

instance (p q : List String) : Decidable (Diverges p q) := by
  unfold Diverges
  infer_instance

/-- The masked paths of FormatJSON, as documented. -/
def sensPaths : List (List String) :=
  [["auth", "passwordCredentials", "password"],
   ["auth", "token", "id"],
   ["auth", "identity", "password", "user", "password"],
   ["auth", "identity", "application_credential", "secret"],
   ["auth", "identity", "token", "id"],
   ["credentials", "access"],
   ["credentials", "body_hash"],
   ["credentials", "headers", "Authorization"],
   ["token", "catalog"]]

/-- Concrete C1 counterexample input: access value occurs in key names
of the pretty-printed output. -/
def c1Body : List Char :=
  "\x7b\"credentials\":\x7b\"access\":\"a\",\"headers\":\x7b\"Authorization\":\"xax\"\x7d\x7d\x7d".data

/-- Headers object of the C1 counterexample input, as parsed. -/
def c1Headers : List (String × Json) := [("Authorization", Json.str "xax")]

/-- Credentials object of the C1 counterexample input, as parsed. -/
def c1Creds : List (String × Json) :=
  [("access", Json.str "a"), ("headers", Json.obj c1Headers)]

/-- Top-level object of the C1 counterexample input, as parsed. -/
def c1Data : List (String × Json) := [("credentials", Json.obj c1Creds)]

/-- Headers object of the C1 witness input. -/
def w1h : List (String × Json) := [("Authorization", Json.str "xabz")]

/-- Credentials object of the C1 witness input. -/
def w1c : List (String × Json) :=
  [("access", Json.str "ab"), ("headers", Json.obj w1h)]

/-- Top-level object of the C1 witness input. -/
def w1d : List (String × Json) := [("credentials", Json.obj w1c)]

/-- Credentials object of the C8 counterexample input: Authorization
present, access absent. -/
def c8Creds : List (String × Json) :=
  [("headers", Json.obj [("Authorization", Json.str "ab")])]

/-- Top-level object of the C8 counterexample input. -/
def c8Data : List (String × Json) := [("credentials", Json.obj c8Creds)]

/-- Top-level object of the C8 witness input: one sensitive and one
non-sensitive field. -/
def c8wData : List (String × Json) :=
  [("credentials", Json.obj [("access", Json.str "k")]), ("other", Json.str "keep")]

/-- Adjacent-pair monotonicity of the accumulated totals along a state
sequence. -/
def MonoTotals : List LStat → Prop
  | [] => True
  | [_] => True
  | a :: b :: l => (a.totalReq ≤ b.totalReq ∧ a.totalErr ≤ b.totalErr) ∧ MonoTotals (b :: l)

/-! ### Theorems -/

theorem isPre_iff (pat s : List Char) : isPre pat s = true ↔ IsPre pat s := by
  induction pat generalizing s with
  | nil => simp [isPre, IsPre]
  | cons a as ih =>
    cases s with
    | nil =>
      simp only [isPre, IsPre]
      constructor
      · intro h; cases h
      · rintro ⟨t, ht⟩; cases ht
    | cons b bs =>
      simp only [isPre, IsPre, Bool.and_eq_true, beq_iff_eq]
      rw [ih bs]
      constructor
      · rintro ⟨rfl, t, rfl⟩
        exact ⟨t, rfl⟩
      · rintro ⟨t, ht⟩
        injection ht with h1 h2
        exact ⟨h1, t, h2⟩

theorem hasSub_iff (pat s : List Char) : hasSub pat s = true ↔ ContainsSub pat s := by
  induction s with
  | nil =>
    simp only [hasSub, List.isEmpty_iff, ContainsSub]
    constructor
    · rintro rfl; exact ⟨[], [], rfl⟩
    · rintro ⟨a, b, h⟩
      have hl := congrArg List.length h
      simp [List.length_append] at hl
      exact List.length_eq_zero.mp (by omega)
  | cons c rest ih =>
    simp only [hasSub, Bool.or_eq_true, isPre_iff, IsPre, ih, ContainsSub]
    constructor
    · rintro (⟨t, ht⟩ | ⟨a, b, rfl⟩)
      · exact ⟨[], t, by simp [ht]⟩
      · exact ⟨c :: a, b, rfl⟩
    · rintro ⟨a, b, hab⟩
      cases a with
      | nil =>
        left
        exact ⟨b, by simpa using hab.symm⟩
      | cons a0 as =>
        right
        injection hab with h1 h2
        exact ⟨as, b, h2⟩

/-- Every character of an occurring pattern is a character of the host list. -/
theorem ContainsSub.char_mem {pat s : List Char} (h : ContainsSub pat s) :
    ∀ c ∈ pat, c ∈ s := by
  rintro c hc
  obtain ⟨a, b, rfl⟩ := h
  simp [hc]

/-- A star-free prefix of the output of goReplaceCore is a prefix of
its input, provided the replacement is a nonempty string of mask
characters. -/
theorem isPre_goReplaceCore (old new : List Char) (hnew : new ≠ [])
    (hstar : ∀ c ∈ new, c = '*') :
    ∀ s k, (∀ c ∈ k, c ≠ '*') → IsPre k (goReplaceCore old new s) → IsPre k s := by
  intro s
  induction s using goReplaceCore.induct old new with
  | case1 =>
    intro k _ h
    simpa [goReplaceCore] using h
  | case2 c rest hmatch ih =>
    intro k hk hpre
    rw [goReplaceCore, if_pos hmatch] at hpre
    cases k with
    | nil => exact ⟨c :: rest, rfl⟩
    | cons d ks =>
      obtain ⟨t, ht⟩ := hpre
      cases new with
      | nil => exact absurd rfl hnew
      | cons n0 ns =>
        injection ht with h1 h2
        have : d = '*' := h1 ▸ hstar n0 (by simp)
        exact absurd this (hk d (by simp))
  | case3 c rest hmatch ih =>
    intro k hk hpre
    rw [goReplaceCore, if_neg hmatch] at hpre
    cases k with
    | nil => exact ⟨c :: rest, rfl⟩
    | cons d ks =>
      obtain ⟨t, ht⟩ := hpre
      injection ht with h1 h2
      obtain ⟨t2, ht2⟩ := ih ks (fun x hx => hk x (by simp [hx])) ⟨t, h2⟩
      exact ⟨t2, by rw [h1]; simp [ht2]⟩

/-- If pat occurs in x ++ y, pat is star-free and x is all mask
characters, then pat occurs in y. -/
theorem containsSub_append_stars {pat : List Char} (hne : pat ≠ [])
    (hpat : ∀ c ∈ pat, c ≠ '*') :
    ∀ x y, (∀ c ∈ x, c = '*') → ContainsSub pat (x ++ y) → ContainsSub pat y := by
  intro x
  induction x with
  | nil => intro y _ h; simpa using h
  | cons x0 xs ih =>
    intro y hx h
    obtain ⟨a, b, hab⟩ := h
    cases a with
    | nil =>
      cases pat with
      | nil => exact absurd rfl hne
      | cons p0 ps =>
        simp only [List.nil_append, List.cons_append] at hab
        injection hab with h1 h2
        have : p0 = '*' := h1.symm ▸ hx x0 (by simp)
        exact absurd this (hpat p0 (by simp))
    | cons a0 as =>
      simp only [List.cons_append] at hab
      injection hab with h1 h2
      exact ih y (fun c hc => hx c (by simp [hc])) ⟨as, b, h2⟩

/-- Core property behind the redaction of the EC2 access value inside
the Authorization header: after a left-to-right replace-all of a
nonempty star-free pattern by a nonempty all-mask replacement, the
pattern no longer occurs. -/
theorem not_containsSub_goReplaceCore (old new : List Char)
    (hne : old ≠ []) (hold : ∀ c ∈ old, c ≠ '*')
    (hnew : new ≠ []) (hstar : ∀ c ∈ new, c = '*') :
    ∀ s, ¬ ContainsSub old (goReplaceCore old new s) := by
  intro s
  induction s using goReplaceCore.induct old new with
  | case1 =>
    rintro ⟨a, b, hab⟩
    rw [goReplaceCore] at hab
    have hl := congrArg List.length hab
    simp [List.length_append] at hl
    exact hne (List.length_eq_zero.mp (by omega))
  | case2 c rest hmatch ih =>
    intro h
    rw [goReplaceCore, if_pos hmatch] at h
    exact ih (containsSub_append_stars hne hold new _ hstar h)
  | case3 c rest hmatch ih =>
    intro h
    rw [goReplaceCore, if_neg hmatch] at h
    obtain ⟨a, b, hab⟩ := h
    cases a with
    | nil =>
      simp only [List.nil_append] at hab
      have heq : goReplaceCore old new (c :: rest) = c :: goReplaceCore old new rest := by
        rw [goReplaceCore, if_neg hmatch]
      have hpre : IsPre old (c :: rest) := by
        apply isPre_goReplaceCore old new hnew hstar (c :: rest) old hold
        exact ⟨b, by rw [heq]; exact hab.symm⟩
      rw [← isPre_iff] at hpre
      exact hmatch ⟨hne, hpre⟩
    | cons a0 as =>
      injection hab with h1 h2
      exact ih ⟨as, b, h2⟩

/-- The mask token itself contains no occurrence of a nonempty
star-free pattern. -/
theorem not_containsSub_mask {pat : List Char} (hne : pat ≠ [])
    (hpat : ∀ c ∈ pat, c ≠ '*') : ¬ ContainsSub pat ['*', '*', '*'] := by
  intro h
  cases pat with
  | nil => exact hne rfl
  | cons p0 ps =>
    have := h.char_mem p0 (by simp)
    simp at this
    exact hpat p0 (by simp) this

/-! ### Helper lemmas about objects and paths -/

theorem objGet_objSet_self (fs : List (String × Json)) (k : String) (v : Json) :
    objGet (objSet fs k v) k = some v := by
  induction fs with
  | nil => simp [objSet, objGet]
  | cons f rest ih =>
    obtain ⟨k2, v2⟩ := f
    by_cases h1 : k = k2
    · simp [objSet, h1, objGet]
    · by_cases h2 : strLt k k2 = true
      · simp [objSet, h1, h2, objGet]
      · simp [objSet, h1, h2, objGet, Ne.symm h1, ih]

theorem objGet_objSet_ne (fs : List (String × Json)) (k k' : String) (v : Json)
    (h : k' ≠ k) : objGet (objSet fs k v) k' = objGet fs k' := by
  induction fs with
  | nil => simp [objSet, objGet, Ne.symm h]
  | cons f rest ih =>
    obtain ⟨k2, v2⟩ := f
    by_cases h1 : k = k2
    · subst h1
      simp [objSet, objGet, Ne.symm h]
    · by_cases h2 : strLt k k2 = true
      · simp [objSet, h1, h2, objGet, Ne.symm h]
      · simp [objSet, h1, h2, objGet, ih]

theorem leads_nil (p : List String) : Leads [] p := ⟨p, rfl⟩

theorem leads_cons_iff (x y : String) (q p : List String) :
    Leads (x :: q) (y :: p) ↔ x = y ∧ Leads q p := by
  constructor
  · rintro ⟨t, ht⟩
    injection ht with h1 h2
    exact ⟨h1, t, h2⟩
  · rintro ⟨rfl, t, rfl⟩
    exact ⟨t, rfl⟩

theorem getPath_obj_cons (fs : List (String × Json)) (k : String) (p : List String) :
    getPath (.obj fs) (k :: p) =
      match objGet fs k with
      | some v => getPath v p
      | none => none := rfl

theorem getPath_objSet_ne (fs : List (String × Json)) (k k' : String) (v : Json)
    (p : List String) (h : k' ≠ k) :
    getPath (.obj (objSet fs k v)) (k' :: p) = getPath (.obj fs) (k' :: p) := by
  rw [getPath_obj_cons, getPath_obj_cons, objGet_objSet_ne fs k k' v h]

/-- Frame property of maskAtPath: a path that diverges from the masked
path reads the same value before and after the mask. -/
theorem getPath_maskAtPath (q : List String) :
    ∀ (fs : List (String × Json)) (req : Bool) (p : List String), q ≠ [] →
      Diverges p q →
      getPath (.obj (maskAtPath fs q req)) p = getPath (.obj fs) p := by
  induction q with
  | nil => intro _ _ _ h; exact absurd rfl h
  | cons k q2 ih =>
    intro fs req p _ hdiv
    obtain ⟨hqp, hpq⟩ := hdiv
    cases p with
    | nil => exact absurd (leads_nil _) hpq
    | cons k' p' =>
      by_cases hk : k' = k
      · subst hk
        have hq2p : ¬ Leads q2 p' := fun h => hqp ((leads_cons_iff _ _ _ _).mpr ⟨rfl, h⟩)
        have hpq2 : ¬ Leads p' q2 := fun h => hpq ((leads_cons_iff _ _ _ _).mpr ⟨rfl, h⟩)
        cases q2 with
        | nil => exact absurd ⟨p', rfl⟩ hqp
        | cons k2 rest =>
          cases hO : objGet fs k' with
          | none =>
            simp only [maskAtPath, hO]
          | some v =>
            cases v with
            | obj inner =>
              simp only [maskAtPath, hO]
              rw [getPath_obj_cons, getPath_obj_cons, objGet_objSet_self, hO]
              exact ih inner req p' (by simp) ⟨hq2p, hpq2⟩
            | null => simp only [maskAtPath, hO]
            | bool b => simp only [maskAtPath, hO]
            | num l => simp only [maskAtPath, hO]
            | str s => simp only [maskAtPath, hO]
            | arr es => simp only [maskAtPath, hO]
      · cases q2 with
        | nil =>
          cases req with
          | false =>
            simp only [maskAtPath]
            exact getPath_objSet_ne fs k k' maskStr p' hk
          | true =>
            simp only [maskAtPath]
            cases hO : objGet fs k with
            | none => rfl
            | some v => exact getPath_objSet_ne fs k k' maskStr p' hk
        | cons k2 rest =>
          cases hO : objGet fs k with
          | none => simp only [maskAtPath, hO]
          | some v =>
            cases v with
            | obj inner =>
              simp only [maskAtPath, hO]
              exact getPath_objSet_ne fs k k' _ p' hk
            | null => simp only [maskAtPath, hO]
            | bool b => simp only [maskAtPath, hO]
            | num l => simp only [maskAtPath, hO]
            | str s => simp only [maskAtPath, hO]
            | arr es => simp only [maskAtPath, hO]

theorem getPath_credAccessStep (c : List (String × Json)) (k : String) (p' : List String)
    (hk : k ≠ "access") :
    getPath (.obj (credAccessStep c).2) (k :: p') = getPath (.obj c) (k :: p') := by
  unfold credAccessStep
  cases hA : objGet c "access" with
  | none => rfl
  | some v => exact getPath_objSet_ne c "access" k maskStr p' hk

theorem getPath_credBodyHashStep (c : List (String × Json)) (k : String) (p' : List String)
    (hk : k ≠ "body_hash") :
    getPath (.obj (credBodyHashStep c)) (k :: p') = getPath (.obj c) (k :: p') := by
  unfold credBodyHashStep
  cases hB : objGet c "body_hash" with
  | none => rfl
  | some v => exact getPath_objSet_ne c "body_hash" k maskStr p' hk

theorem objGet_credAccessStep (c : List (String × Json)) (k : String)
    (hk : k ≠ "access") : objGet (credAccessStep c).2 k = objGet c k := by
  unfold credAccessStep
  cases hA : objGet c "access" with
  | none => rfl
  | some v => exact objGet_objSet_ne c "access" k maskStr hk

theorem objGet_credBodyHashStep (c : List (String × Json)) (k : String)
    (hk : k ≠ "body_hash") : objGet (credBodyHashStep c) k = objGet c k := by
  unfold credBodyHashStep
  cases hB : objGet c "body_hash" with
  | none => rfl
  | some v => exact objGet_objSet_ne c "body_hash" k maskStr hk

theorem getPath_credHeadersStep (a : String) (c : List (String × Json))
    (k : String) (p' : List String)
    (hdiv : Diverges (k :: p') ["headers", "Authorization"]) :
    getPath (.obj (credHeadersStep a c)) (k :: p') = getPath (.obj c) (k :: p') := by
  unfold credHeadersStep
  by_cases hk : k = "headers"
  · subst hk
    have hp'1 : ¬ Leads ["Authorization"] p' :=
      fun h => hdiv.1 ((leads_cons_iff _ _ _ _).mpr ⟨rfl, h⟩)
    have hp'2 : ¬ Leads p' ["Authorization"] :=
      fun h => hdiv.2 ((leads_cons_iff _ _ _ _).mpr ⟨rfl, h⟩)
    cases p' with
    | nil => exact absurd (leads_nil _) hp'2
    | cons k3 p'' =>
      have hk3 : k3 ≠ "Authorization" := by
        intro h; exact hp'1 ⟨p'', by simp [h]⟩
      cases hH : objGet c "headers" with
      | none => rfl
      | some v =>
        cases v with
        | obj h =>
          dsimp only
          cases hAu : objGet h "Authorization" with
          | none => rfl
          | some va =>
            cases va with
            | str s =>
              dsimp only
              rw [getPath_obj_cons, objGet_objSet_self, getPath_obj_cons, hH]
              exact getPath_objSet_ne h "Authorization" k3 _ p'' hk3
            | null => rfl
            | bool b => rfl
            | num l => rfl
            | obj o => rfl
            | arr es => rfl
        | null => rfl
        | bool b => rfl
        | num l => rfl
        | str s => rfl
        | arr es => rfl
  · cases hH : objGet c "headers" with
    | none => rfl
    | some v =>
      cases v with
      | obj h =>
        dsimp only
        cases hAu : objGet h "Authorization" with
        | none => rfl
        | some va =>
          cases va with
          | str s =>
            dsimp only
            exact getPath_objSet_ne c "headers" k _ p' hk
          | null => rfl
          | bool b => rfl
          | num l => rfl
          | obj o => rfl
          | arr es => rfl
      | null => rfl
      | bool b => rfl
      | num l => rfl
      | str s => rfl
      | arr es => rfl

/-- Frame property of the inner credentials masking: a path diverging
from access, body_hash and headers.Authorization is untouched. -/
theorem getPath_maskCredentialsInner (c : List (String × Json)) (p : List String)
    (hAcc : Diverges p ["access"]) (hBH : Diverges p ["body_hash"])
    (hAuth : Diverges p ["headers", "Authorization"]) :
    getPath (.obj (maskCredentialsInner c)) p = getPath (.obj c) p := by
  cases p with
  | nil => exact absurd (leads_nil _) hAcc.2
  | cons k p' =>
    have hkacc : k ≠ "access" := by
      intro h; exact hAcc.1 ⟨p', by simp [h]⟩
    have hkbh : k ≠ "body_hash" := by
      intro h; exact hBH.1 ⟨p', by simp [h]⟩
    unfold maskCredentialsInner
    rw [getPath_credHeadersStep _ _ _ _ hAuth,
      getPath_credBodyHashStep _ _ _ hkbh,
      getPath_credAccessStep _ _ _ hkacc]

/-- Frame property of the credentials block: a path diverging from the
three credentials paths is untouched. -/
theorem getPath_maskCredentials (d : List (String × Json)) (p : List String)
    (hAcc : Diverges p ["credentials", "access"])
    (hBH : Diverges p ["credentials", "body_hash"])
    (hAuth : Diverges p ["credentials", "headers", "Authorization"]) :
    getPath (.obj (maskCredentials d)) p = getPath (.obj d) p := by
  cases p with
  | nil => exact absurd (leads_nil _) hAcc.2
  | cons k p' =>
    unfold maskCredentials
    by_cases hk : k = "credentials"
    · subst hk
      cases hC : objGet d "credentials" with
      | none => rfl
      | some v =>
        cases v with
        | obj c =>
          rw [getPath_obj_cons, objGet_objSet_self, getPath_obj_cons, hC]
          refine getPath_maskCredentialsInner c p' ⟨?_, ?_⟩ ⟨?_, ?_⟩ ⟨?_, ?_⟩
          · exact fun h => hAcc.1 ((leads_cons_iff _ _ _ _).mpr ⟨rfl, h⟩)
          · exact fun h => hAcc.2 ((leads_cons_iff _ _ _ _).mpr ⟨rfl, h⟩)
          · exact fun h => hBH.1 ((leads_cons_iff _ _ _ _).mpr ⟨rfl, h⟩)
          · exact fun h => hBH.2 ((leads_cons_iff _ _ _ _).mpr ⟨rfl, h⟩)
          · exact fun h => hAuth.1 ((leads_cons_iff _ _ _ _).mpr ⟨rfl, h⟩)
          · exact fun h => hAuth.2 ((leads_cons_iff _ _ _ _).mpr ⟨rfl, h⟩)
        | null => rfl
        | bool b => rfl
        | num l => rfl
        | str s => rfl
        | arr es => rfl
    · cases hC : objGet d "credentials" with
      | none => rfl
      | some v =>
        cases v with
        | obj c => exact getPath_objSet_ne d "credentials" k _ p' hk
        | null => rfl
        | bool b => rfl
        | num l => rfl
        | str s => rfl
        | arr es => rfl

theorem isPreS_iff (q p : List String) : isPreS q p = true ↔ Leads q p := by
  induction q generalizing p with
  | nil => simp [isPreS, leads_nil]
  | cons a as ih =>
    cases p with
    | nil =>
      simp only [isPreS, Leads]
      constructor
      · intro h; cases h
      · rintro ⟨t, ht⟩; cases ht
    | cons b bs =>
      simp only [isPreS, Bool.and_eq_true, beq_iff_eq]
      rw [ih bs, leads_cons_iff]

theorem objGet_maskAtPath_ne (fs : List (String × Json)) (k : String) (q : List String)
    (req : Bool) (k' : String) (h : k' ≠ k) :
    objGet (maskAtPath fs (k :: q) req) k' = objGet fs k' := by
  cases q with
  | nil =>
    cases req with
    | false =>
      simp only [maskAtPath, Bool.false_eq_true, if_false]
      exact objGet_objSet_ne fs k k' maskStr h
    | true =>
      simp only [maskAtPath, if_true]
      cases hO : objGet fs k with
      | none => rfl
      | some v => exact objGet_objSet_ne fs k k' maskStr h
  | cons k2 rest =>
    simp only [maskAtPath]
    cases hO : objGet fs k with
    | none => rfl
    | some v =>
      cases v with
      | obj inner => exact objGet_objSet_ne fs k k' _ h
      | null => rfl
      | bool b => rfl
      | num l => rfl
      | str s => rfl
      | arr es => rfl

theorem objGet_maskCredentials_obj (d : List (String × Json)) (c : List (String × Json))
    (hc : objGet d "credentials" = some (.obj c)) :
    objGet (maskCredentials d) "credentials" = some (.obj (maskCredentialsInner c)) := by
  unfold maskCredentials
  rw [hc]
  exact objGet_objSet_self d "credentials" _

/-- Computation of the inner credentials masking when access is a
string and headers.Authorization is a string: access becomes the mask
token and Authorization becomes the replace-all result. -/
theorem maskCredentialsInner_spec (c h : List (String × Json)) (X A : String)
    (ha : objGet c "access" = some (.str X))
    (hh : objGet c "headers" = some (.obj h))
    (hA : objGet h "Authorization" = some (.str A)) :
    objGet (maskCredentialsInner c) "access" = some maskStr ∧
    objGet (maskCredentialsInner c) "headers" =
      some (.obj (objSet h "Authorization"
        (.str (String.mk (goReplace A.data X.data ['*', '*', '*']))))) := by
  unfold maskCredentialsInner credAccessStep
  rw [ha]
  dsimp only
  have hacc1 : objGet (objSet c "access" maskStr) "access" = some maskStr :=
    objGet_objSet_self c "access" maskStr
  have hh1 : objGet (objSet c "access" maskStr) "headers" = some (.obj h) := by
    rw [objGet_objSet_ne c "access" "headers" maskStr (by decide)]
    exact hh
  unfold credBodyHashStep
  cases hB : objGet (objSet c "access" maskStr) "body_hash" with
  | none =>
    unfold credHeadersStep
    rw [hh1]
    dsimp only
    rw [hA]
    dsimp only
    constructor
    · rw [objGet_objSet_ne _ "headers" "access" _ (by decide)]
      exact hacc1
    · exact objGet_objSet_self _ "headers" _
  | some vb =>
    have hacc2 : objGet (objSet (objSet c "access" maskStr) "body_hash" maskStr) "access"
        = some maskStr := by
      rw [objGet_objSet_ne _ "body_hash" "access" _ (by decide)]
      exact hacc1
    have hh2 : objGet (objSet (objSet c "access" maskStr) "body_hash" maskStr) "headers"
        = some (.obj h) := by
      rw [objGet_objSet_ne _ "body_hash" "headers" _ (by decide)]
      exact hh1
    unfold credHeadersStep
    rw [hh2]
    dsimp only
    rw [hA]
    dsimp only
    constructor
    · rw [objGet_objSet_ne _ "headers" "access" _ (by decide)]
      exact hacc2
    · exact objGet_objSet_self _ "headers" _

theorem objGet_maskKnownFields_credentials (d c : List (String × Json))
    (hc : objGet d "credentials" = some (.obj c)) :
    objGet (maskKnownFields d) "credentials" = some (.obj (maskCredentialsInner c)) := by
  unfold maskKnownFields
  rw [objGet_maskAtPath_ne _ "token" _ _ "credentials" (by decide)]
  apply objGet_maskCredentials_obj
  rw [objGet_maskAtPath_ne _ "auth" _ _ "credentials" (by decide)]
  rw [objGet_maskAtPath_ne _ "auth" _ _ "credentials" (by decide)]
  rw [objGet_maskAtPath_ne _ "auth" _ _ "credentials" (by decide)]
  rw [objGet_maskAtPath_ne _ "auth" _ _ "credentials" (by decide)]
  rw [objGet_maskAtPath_ne _ "auth" _ _ "credentials" (by decide)]
  exact hc

/-- C1, counterexample to the claim as stated: for the body
credentials.access = "a", credentials.headers.Authorization = "xax"
(which contains "a"), the premises of the claim hold, yet the
formatted output of FormatJSON still contains an occurrence of "a",
for instance inside the key name credentials itself.  The claim that
the output contains zero occurrences of the access value is therefore
false. -/
theorem c1_counterexample :
    parseJson c1Body = some (.obj c1Data) ∧
    objGet c1Data "credentials" = some (.obj c1Creds) ∧
    objGet c1Creds "access" = some (.str "a") ∧
    objGet c1Creds "headers" = some (.obj c1Headers) ∧
    objGet c1Headers "Authorization" = some (.str "xax") ∧
    hasSub "a".data "xax".data = true ∧
    hasSub "a".data (FormatJSONModel c1Body).1.data = true :=
  ⟨rfl, rfl, rfl, rfl, rfl, rfl, rfl⟩

/-- C1 (amended): for a body whose top-level credentials.access is the
string X and whose credentials.headers.Authorization is a string A
containing X, the masking pass of FormatJSON rewrites access to the
mask token and rewrites Authorization by replacing every occurrence of
X with the mask token; when X is nonempty and contains no mask
character, neither the masked access value nor the masked
Authorization value contains an occurrence of X (occurrences of X
elsewhere in the document, including in key names, may remain). -/
theorem c1_access_redaction (d c h2 : List (String × Json)) (X A : String)
    (hc : objGet d "credentials" = some (.obj c))
    (ha : objGet c "access" = some (.str X))
    (hh : objGet c "headers" = some (.obj h2))
    (hA : objGet h2 "Authorization" = some (.str A))
    (hsub : hasSub X.data A.data = true)
    (hne : X ≠ "") (hstar : ∀ ch ∈ X.data, ch ≠ '*') :
    objGet (maskKnownFields d) "credentials" = some (.obj (maskCredentialsInner c)) ∧
    objGet (maskCredentialsInner c) "access" = some (.str "***") ∧
    objGet (maskCredentialsInner c) "headers" =
      some (.obj (objSet h2 "Authorization"
        (.str (String.mk (goReplace A.data X.data ['*', '*', '*']))))) ∧
    hasSub X.data (goReplace A.data X.data ['*', '*', '*']) = false ∧
    hasSub X.data ['*', '*', '*'] = false := by
  obtain ⟨m1, m2⟩ := maskCredentialsInner_spec c h2 X A ha hh hA
  have hXd : X.data ≠ [] := by
    intro hcon
    apply hne
    cases X with
    | mk l =>
      simp only [String.data] at hcon
      simp [hcon]
  refine ⟨objGet_maskKnownFields_credentials d c hc, m1, m2, ?_, ?_⟩
  · rw [goReplace, if_neg hXd]
    apply eq_false_of_ne_true
    intro htrue
    exact not_containsSub_goReplaceCore X.data ['*', '*', '*'] hXd hstar (by simp)
      (by decide) A.data ((hasSub_iff _ _).mp htrue)
  · apply eq_false_of_ne_true
    intro htrue
    exact not_containsSub_mask hXd hstar ((hasSub_iff _ _).mp htrue)

/-- C1, witness: the amended theorem applied to access "ab" and
Authorization "xabz". -/
theorem c1_access_redaction_witness :
    objGet (maskKnownFields w1d) "credentials" = some (.obj (maskCredentialsInner w1c)) ∧
    objGet (maskCredentialsInner w1c) "access" = some (.str "***") ∧
    objGet (maskCredentialsInner w1c) "headers" =
      some (.obj (objSet w1h "Authorization"
        (.str (String.mk (goReplace "xabz".data "ab".data ['*', '*', '*']))))) ∧
    hasSub "ab".data (goReplace "xabz".data "ab".data ['*', '*', '*']) = false ∧
    hasSub "ab".data ['*', '*', '*'] = false :=
  c1_access_redaction w1d w1c w1h "ab" "xabz" rfl rfl rfl rfl (by decide) (by decide)
    (by decide)

/-- C8, counterexample to the claim as stated: with credentials
present, access absent and Authorization the string "ab", FormatJSON
still rewrites the Authorization value (a field outside the documented
sensitive-field list, since there is no access value whose occurrences
could be replaced), interleaving the mask token at every character
boundary. -/
theorem c8_counterexample :
    objGet c8Creds "access" = none ∧
    getPath (.obj c8Data) ["credentials", "headers", "Authorization"] = some (.str "ab") ∧
    getPath (.obj (maskKnownFields c8Data)) ["credentials", "headers", "Authorization"] =
      some (.str "***a***b***") :=
  ⟨rfl, rfl, rfl⟩

/-- C8 (amended): the masking pass of FormatJSON leaves every path
that diverges from the nine documented sensitive paths (the five auth
paths, credentials.access, credentials.body_hash,
credentials.headers.Authorization and token.catalog) unchanged in
value and shape; the Authorization value itself can however be
rewritten even when credentials.access is absent or not a string, in
which case the captured access value is the empty string and the mask
token is interleaved at every character boundary. -/
theorem c8_frame (d : List (String × Json)) (p : List String)
    (hdiv : ∀ q ∈ sensPaths, Diverges p q) :
    getPath (.obj (maskKnownFields d)) p = getPath (.obj d) p := by
  have h1 := hdiv ["auth", "passwordCredentials", "password"] (by simp [sensPaths])
  have h2 := hdiv ["auth", "token", "id"] (by simp [sensPaths])
  have h3 := hdiv ["auth", "identity", "password", "user", "password"] (by simp [sensPaths])
  have h4 := hdiv ["auth", "identity", "application_credential", "secret"] (by simp [sensPaths])
  have h5 := hdiv ["auth", "identity", "token", "id"] (by simp [sensPaths])
  have h6 := hdiv ["credentials", "access"] (by simp [sensPaths])
  have h7 := hdiv ["credentials", "body_hash"] (by simp [sensPaths])
  have h8 := hdiv ["credentials", "headers", "Authorization"] (by simp [sensPaths])
  have h9 := hdiv ["token", "catalog"] (by simp [sensPaths])
  unfold maskKnownFields
  rw [getPath_maskAtPath ["token", "catalog"] _ true p (by simp) h9,
    getPath_maskCredentials _ p h6 h7 h8,
    getPath_maskAtPath ["auth", "identity", "token", "id"] _ false p (by simp) h5,
    getPath_maskAtPath ["auth", "identity", "application_credential", "secret"] _ false p
      (by simp) h4,
    getPath_maskAtPath ["auth", "identity", "password", "user", "password"] _ false p
      (by simp) h3,
    getPath_maskAtPath ["auth", "token", "id"] _ false p (by simp) h2,
    getPath_maskAtPath ["auth", "passwordCredentials", "password"] _ false p (by simp) h1]

/-- C8, witness: the frame theorem applied to a document with a
sensitive credentials field and an unrelated field read at the
unrelated path. -/
theorem c8_frame_witness :
    getPath (.obj (maskKnownFields c8wData)) ["other"] = getPath (.obj c8wData) ["other"] :=
  c8_frame c8wData ["other"] (by decide)

/-- C7: for every byte sequence that is not well-formed JSON,
FormatJSON returns the original bytes unchanged as a string together
with a signalled parse error, and the outcome is recoverable: the body
logger logs the error and still hands the round-trip a readable stream
over exactly the original bytes. -/
theorem c7_malformed_identity (raw : List Char) (h : parseJson raw = none) :
    FormatJSONModel raw = (String.mk raw, some "unable to parse JSON") ∧
    (∀ ct, isJsonRequestCT ct = true →
      logRequestModel ct (.chunks raw) =
        ⟨.ok (.chunks raw), true,
         ["unable to parse JSON", "Body: " ++ String.mk raw]⟩) := by
  have hfj : FormatJSONModel raw = (String.mk raw, some "unable to parse JSON") := by
    unfold FormatJSONModel
    rw [h]
  refine ⟨hfj, fun ct hct => ?_⟩
  unfold logRequestModel
  rw [if_pos hct]
  dsimp only [ioCopyModel]
  rw [hfj]
  rfl

/-- C7, witness: the identity and the recoverable logging outcome on
the malformed input consisting of a single opening brace. -/
theorem c7_malformed_identity_witness :
    FormatJSONModel [lbrace] = (String.mk [lbrace], some "unable to parse JSON") ∧
    (∀ ct, isJsonRequestCT ct = true →
      logRequestModel ct (.chunks [lbrace]) =
        ⟨.ok (.chunks [lbrace]), true,
         ["unable to parse JSON", "Body: " ++ String.mk [lbrace]]⟩) :=
  c7_malformed_identity [lbrace] rfl

/-- C9: for every intercepted body (JSON content types), logRequest
and logResponse drain and close the original stream and return a
readable stream whose contents are byte-for-byte the original body,
so the logged round-trip forwards an unmodified payload; a read
failure while draining is propagated as an error (aborting the
round-trip) with the original still closed by the deferred Close. -/
theorem c9_body_logger (ct : String) (bs pre : List Char) (e : String) :
    (isJsonRequestCT ct = true →
      (logRequestModel ct (.chunks bs)).returned = .ok (.chunks bs) ∧
      (logRequestModel ct (.chunks bs)).originalClosed = true ∧
      (logRequestModel ct (.failAfter pre e)).returned = .error e ∧
      (logRequestModel ct (.failAfter pre e)).originalClosed = true) ∧
    (isJsonResponseCT ct = true →
      (logResponseModel ct (.chunks bs)).returned = .ok (.chunks bs) ∧
      (logResponseModel ct (.chunks bs)).originalClosed = true ∧
      (logResponseModel ct (.failAfter pre e)).returned = .error e ∧
      (logResponseModel ct (.failAfter pre e)).originalClosed = true) := by
  constructor
  · intro h
    unfold logRequestModel
    rw [if_pos h, if_pos h]
    exact ⟨rfl, rfl, rfl, rfl⟩
  · intro h
    unfold logResponseModel
    rw [if_pos h, if_pos h]
    exact ⟨rfl, rfl, rfl, rfl⟩

/-- C9, witness: the body logger on content type application/json with
a concrete body and a concrete failing stream. -/
theorem c9_body_logger_witness :
    ((logRequestModel "application/json" (.chunks "[1]".data)).returned
        = .ok (.chunks "[1]".data) ∧
      (logRequestModel "application/json" (.chunks "[1]".data)).originalClosed = true ∧
      (logRequestModel "application/json" (.failAfter [] "read error")).returned
        = .error "read error" ∧
      (logRequestModel "application/json" (.failAfter [] "read error")).originalClosed
        = true) ∧
    ((logResponseModel "application/json" (.chunks "[1]".data)).returned
        = .ok (.chunks "[1]".data) ∧
      (logResponseModel "application/json" (.chunks "[1]".data)).originalClosed = true ∧
      (logResponseModel "application/json" (.failAfter [] "read error")).returned
        = .error "read error" ∧
      (logResponseModel "application/json" (.failAfter [] "read error")).originalClosed
        = true) :=
  ⟨(c9_body_logger "application/json" "[1]".data [] "read error").1 rfl,
   (c9_body_logger "application/json" "[1]".data [] "read error").2 rfl⟩

/-- Run of the retry loop when every delegation call up to index R
returns a nil response: the loop walks r from its current value to
R + 1, logging one retry entry per iteration, and ends in the
exhausted error wrapping the last underlying error. -/
theorem rtGo_allnil (R : Nat) (att : Nat → Option HttpResp × String)
    (hnil : ∀ i, i ≤ R → (att i).1 = none) :
    ∀ k r lg, 1 ≤ r → r + k = R + 1 →
      rtGo R att r (att (r - 1)) lg r =
        ⟨.error (exhaustedMsg (att R).2),
         lg ++ (List.range' r k).map (fun i => (i, (att (i - 1)).2)), R + 1⟩ := by
  intro k
  induction k with
  | zero =>
    intro r lg h1 hk
    have hr : r = R + 1 := by omega
    subst hr
    rw [rtGo]
    rw [hnil (R + 1 - 1) (by omega)]
    rw [if_pos (by omega)]
    simp only [List.range', List.map_nil, List.append_nil]
    have : R + 1 - 1 = R := by omega
    rw [this]
  | succ k ih =>
    intro r lg h1 hk
    rw [rtGo]
    rw [hnil (r - 1) (by omega)]
    rw [if_neg (by omega)]
    have hr : rtGo R att (r + 1) (att r) (lg ++ [(r, (att (r - 1)).2)]) (r + 1) =
        ⟨.error (exhaustedMsg (att R).2),
         (lg ++ [(r, (att (r - 1)).2)]) ++
           (List.range' (r + 1) k).map (fun i => (i, (att (i - 1)).2)), R + 1⟩ := by
      have := ih (r + 1) (lg ++ [(r, (att (r - 1)).2)]) (by omega) (by omega)
      simpa using this
    rw [hr]
    rw [List.range'_succ]
    simp

/-- Run of the retry loop when the calls before index N return nil and
call N succeeds: the loop returns that response after N + 1 calls with
one retry entry per failed call. -/
theorem rtGo_success (R N : Nat) (att : Nat → Option HttpResp × String) (resp : HttpResp)
    (hN : N ≤ R) (hnil : ∀ i, i < N → (att i).1 = none)
    (hsucc : (att N).1 = some resp) :
    ∀ k r lg, 1 ≤ r → r + k = N + 1 →
      rtGo R att r (att (r - 1)) lg r =
        ⟨.ok resp, lg ++ (List.range' r k).map (fun i => (i, (att (i - 1)).2)), N + 1⟩ := by
  intro k
  induction k with
  | zero =>
    intro r lg h1 hk
    have hr : r = N + 1 := by omega
    subst hr
    rw [rtGo]
    have : N + 1 - 1 = N := by omega
    rw [this, hsucc]
    simp only [List.range', List.map_nil, List.append_nil]
  | succ k ih =>
    intro r lg h1 hk
    rw [rtGo]
    rw [hnil (r - 1) (by omega)]
    rw [if_neg (by omega)]
    have hr : rtGo R att (r + 1) (att r) (lg ++ [(r, (att (r - 1)).2)]) (r + 1) =
        ⟨.ok resp,
         (lg ++ [(r, (att (r - 1)).2)]) ++
           (List.range' (r + 1) k).map (fun i => (i, (att (i - 1)).2)), N + 1⟩ := by
      have := ih (r + 1) (lg ++ [(r, (att (r - 1)).2)]) (by omega) (by omega)
      simpa using this
    rw [hr]
    rw [List.range'_succ]
    simp

/-- Shape of the retry log: the entries for retries 1 to R carry the
prior error of each failed call. -/
theorem range'_map_retryLog (R : Nat) (att : Nat → Option HttpResp × String) :
    (List.range' 1 R).map (fun i => (i, (att (i - 1)).2)) =
      (List.range R).map (fun i => (i + 1, (att i).2)) := by
  rw [List.range'_eq_map_range]
  rw [List.map_map]
  apply List.map_congr_left
  intro i hi
  simp
  omega

/-- C2: with MaxRetries = R, when every delegation attempt returns a
nil response the round-trip makes exactly R + 1 delegation calls (no
R + 2-th call) and returns the single distinct retries-exhausted error
wrapping the last underlying error, after logging R retry entries,
each carrying its attempt number and the prior error; and when the
first R attempts return nil followed by a success, the round-trip
returns that success after R + 1 calls with exactly those R retry log
entries. -/
theorem c2_retry_loop (R : Nat) (att : Nat → Option HttpResp × String) :
    ((∀ i, i ≤ R → (att i).1 = none) →
      roundTripRetries R att =
        ⟨.error (exhaustedMsg (att R).2),
         (List.range R).map (fun i => (i + 1, (att i).2)), R + 1⟩) ∧
    (∀ resp, (∀ i, i < R → (att i).1 = none) → (att R).1 = some resp →
      roundTripRetries R att =
        ⟨.ok resp, (List.range R).map (fun i => (i + 1, (att i).2)), R + 1⟩) := by
  constructor
  · intro hnil
    unfold roundTripRetries
    have := rtGo_allnil R att hnil R 1 [] (by omega) (by omega)
    simp only [List.nil_append] at this
    rw [show (1 : Nat) - 1 = 0 from rfl] at this
    rw [this, range'_map_retryLog]
  · intro resp hnil hsucc
    unfold roundTripRetries
    have := rtGo_success R R att resp (by omega) hnil hsucc R 1 [] (by omega) (by omega)
    simp only [List.nil_append] at this
    rw [show (1 : Nat) - 1 = 0 from rfl] at this
    rw [this, range'_map_retryLog]

/-- C2, witness: a transport failing every time with MaxRetries = 1,
and a transport failing once and then succeeding. -/
theorem c2_retry_loop_witness :
    roundTripRetries 1 (fun _ => (none, "conn refused")) =
      ⟨.error (exhaustedMsg "conn refused"), [(1, "conn refused")], 2⟩ ∧
    roundTripRetries 1 (fun i => if i < 1 then (none, "conn reset") else (some ⟨201⟩, "")) =
      ⟨.ok ⟨201⟩, [(1, "conn reset")], 2⟩ :=
  ⟨(c2_retry_loop 1 (fun _ => (none, "conn refused"))).1 (fun _ _ => rfl),
   (c2_retry_loop 1 (fun i => if i < 1 then (none, "conn reset") else (some ⟨201⟩, ""))).2
     ⟨201⟩
     (fun i hi => by
       have : i = 0 := by omega
       subst this
       rfl)
     rfl⟩

/-- Inductive invariant of the harness: every running worker holds one
limiter slot (plus the one slot held between send and spawn), and the
limiter never exceeds its capacity. -/
theorem hreach_inv (T : Nat) (s : HState) (h : HReach T s) :
    s.running + (if s.pending then 1 else 0) = s.chanLen ∧ s.chanLen ≤ T := by
  induction h with
  | init => simp [HInit]
  | step s s2 hr hst ih =>
    cases hst with
    | send hp hc =>
      rw [hp] at ih
      simp at ih ⊢
      omega
    | spawn hp =>
      rw [hp] at ih
      simp at ih ⊢
      omega
    | finish hr0 hc0 =>
      cases hp : s.pending with
      | false =>
        rw [hp] at ih
        simp [hp] at ih ⊢
        omega
      | true =>
        rw [hp] at ih
        simp [hp] at ih ⊢
        omega

/-- C3: in continuous-load mode with capacity T, in every reachable
state of the harness the number of in-flight workers (dispatched, not
yet completed) is at most T: each worker holds a limiter slot from
before its spawn until its completion, and the limiter holds at most T
slots. -/
theorem c3_limiter_bound (T : Nat) (s : HState) (h : HReach T s) : s.running ≤ T := by
  have hinv := hreach_inv T s h
  cases hp : s.pending with
  | false => rw [hp] at hinv; simp at hinv; omega
  | true => rw [hp] at hinv; simp at hinv; omega

/-- C3, witness: with one thread, the state after one send and one
spawn is reachable and respects the bound. -/
theorem c3_limiter_bound_witness : (⟨1, 1, false⟩ : HState).running ≤ 1 :=
  c3_limiter_bound 1 ⟨1, 1, false⟩
    (HReach.step _ _
      (HReach.step _ _ HReach.init (HStep.send HInit rfl (by decide)))
      (HStep.spawn ⟨1, 0, true⟩ rfl))

/-- C4 (code bug in part_000): in continuous mode a failed
authentication attempt with debug enabled makes the part_000 worker
fall through its error path (there is no return) and evaluate
res.Username on the nil result, a panic that kills the harness — the
statistics are updated but the outcome is fatal, contradicting the
claim; the part_001 worker returns after updating the statistics and
never panics, for any combination of debug and show-error. -/
theorem c4_part000_debug_crash :
    auth000cont true (.error "connection refused") ⟨0, 0⟩ = (⟨1, 1⟩, .panicked) ∧
    auth000cont false (.error "connection refused") ⟨0, 0⟩ = (⟨1, 1⟩, .completed) ∧
    (∀ (debug showErr : Bool) (r : Except String AuthResult) (st : WStats)
      (errs : List (String × Nat)),
      (auth001cont debug showErr r st errs).2.2 = .completed) := by
  refine ⟨rfl, rfl, fun debug showErr r st errs => ?_⟩
  cases r with
  | error e =>
    unfold auth001cont
    dsimp only
  | ok a => rfl

theorem monoTotals_cons (st st2 : LStat) (l : List LEvent)
    (hrel : st.totalReq ≤ st2.totalReq ∧ st.totalErr ≤ st2.totalErr)
    (hm : MonoTotals (stateSeq st2 l)) :
    MonoTotals (st :: stateSeq st2 l) := by
  cases l with
  | nil => exact ⟨hrel, trivial⟩
  | cons e rest => exact ⟨hrel, hm⟩

/-- Inductive invariant of the counter machine: as long as the total
number of increments stays below the uint64 modulus, the window
counter plus the accumulated total never exceeds the number of
increments consumed, the totals grow monotonically, and each reporter
observation satisfies window-count at most total-count. -/
theorem run_inv (evs : List LEvent) :
    ∀ st : LStat,
      st.ops + st.totalReq + countOps evs < u64Mod →
      st.fps + st.totalErr + countFps evs < u64Mod →
      MonoTotals (stateSeq st evs) ∧
      (∀ o ∈ runObs st evs, o.s ≤ o.tS ∧ o.f ≤ o.tF) := by
  induction evs with
  | nil =>
    intro st h1 h2
    exact ⟨trivial, by simp [runObs]⟩
  | cons e rest ih =>
    intro st h1 h2
    cases e with
    | opsInc =>
      have hc : countOps (LEvent.opsInc :: rest) = countOps rest + 1 := by
        simp [countOps]
      have hcf : countFps (LEvent.opsInc :: rest) = countFps rest := by
        simp [countFps]
      rw [hc] at h1
      rw [hcf] at h2
      have hmod : (st.ops + 1) % u64Mod = st.ops + 1 := Nat.mod_eq_of_lt (by omega)
      obtain ⟨hm, ho⟩ := ih { st with ops := (st.ops + 1) % u64Mod }
        (show (st.ops + 1) % u64Mod + st.totalReq + countOps rest < u64Mod by
          rw [hmod]; omega)
        (show st.fps + st.totalErr + countFps rest < u64Mod by omega)
      refine ⟨monoTotals_cons _ _ _ ⟨le_refl _, le_refl _⟩ hm, ?_⟩
      intro o hobs
      exact ho o (by simpa [runObs, lstep] using hobs)
    | fpsInc =>
      have hc : countFps (LEvent.fpsInc :: rest) = countFps rest + 1 := by
        simp [countFps]
      have hcf : countOps (LEvent.fpsInc :: rest) = countOps rest := by
        simp [countOps]
      rw [hc] at h2
      rw [hcf] at h1
      have hmod : (st.fps + 1) % u64Mod = st.fps + 1 := Nat.mod_eq_of_lt (by omega)
      obtain ⟨hm, ho⟩ := ih { st with fps := (st.fps + 1) % u64Mod }
        (show st.ops + st.totalReq + countOps rest < u64Mod by omega)
        (show (st.fps + 1) % u64Mod + st.totalErr + countFps rest < u64Mod by
          rw [hmod]; omega)
      refine ⟨monoTotals_cons _ _ _ ⟨le_refl _, le_refl _⟩ hm, ?_⟩
      intro o hobs
      exact ho o (by simpa [runObs, lstep] using hobs)
    | tick =>
      have hc : countOps (LEvent.tick :: rest) = countOps rest := by
        simp [countOps]
      have hcf : countFps (LEvent.tick :: rest) = countFps rest := by
        simp [countFps]
      rw [hc] at h1
      rw [hcf] at h2
      have hmodS : (st.totalReq + st.ops) % u64Mod = st.totalReq + st.ops :=
        Nat.mod_eq_of_lt (by omega)
      have hmodF : (st.totalErr + st.fps) % u64Mod = st.totalErr + st.fps :=
        Nat.mod_eq_of_lt (by omega)
      obtain ⟨hm, ho⟩ := ih ⟨0, 0, (st.totalReq + st.ops) % u64Mod,
          (st.totalErr + st.fps) % u64Mod⟩
        (show 0 + (st.totalReq + st.ops) % u64Mod + countOps rest < u64Mod by
          rw [hmodS]; omega)
        (show 0 + (st.totalErr + st.fps) % u64Mod + countFps rest < u64Mod by
          rw [hmodF]; omega)
      refine ⟨monoTotals_cons _ _ _
        ⟨show st.totalReq ≤ (st.totalReq + st.ops) % u64Mod by rw [hmodS]; omega,
         show st.totalErr ≤ (st.totalErr + st.fps) % u64Mod by rw [hmodF]; omega⟩ hm, ?_⟩
      intro o hobs
      simp only [runObs, lstep, List.mem_append, List.mem_singleton] at hobs
      rcases hobs with rfl | hobs
      · exact ⟨show st.ops ≤ (st.totalReq + st.ops) % u64Mod by rw [hmodS]; omega,
          show st.fps ≤ (st.totalErr + st.fps) % u64Mod by rw [hmodF]; omega⟩
      · exact ho o hobs

/-- Shape of every reporter observation: the logged percentages are
computed by the percent formula from the logged counts. -/
theorem runObs_shape (evs : List LEvent) :
    ∀ st o, o ∈ runObs st evs →
      o.perc = percent o.f o.s ∧ o.tPerc = percent o.tF o.tS := by
  induction evs with
  | nil => intro st o ho; simp [runObs] at ho
  | cons e rest ih =>
    intro st o ho
    cases e with
    | opsInc => exact ih _ o (by simpa [runObs, lstep] using ho)
    | fpsInc => exact ih _ o (by simpa [runObs, lstep] using ho)
    | tick =>
      simp only [runObs, lstep, List.mem_append, List.mem_singleton] at ho
      rcases ho with rfl | ho
      · exact ⟨rfl, rfl⟩
      · exact ih _ o ho

/-- C5: along every continuous-load execution (with fewer than 2^64
increments of either counter, below the uint64 wraparound), the
cumulative totals never decrease at any step, and at every reporter
observation the accumulated total-requests value is at least the
captured per-window requests value (and likewise for failures). -/
theorem c5_stats_monotone (evs : List LEvent)
    (h1 : countOps evs < u64Mod) (h2 : countFps evs < u64Mod) :
    MonoTotals (stateSeq initStat evs) ∧
    ∀ o ∈ runObs initStat evs, o.s ≤ o.tS ∧ o.f ≤ o.tF :=
  run_inv evs initStat (by simpa [initStat] using h1) (by simpa [initStat] using h2)

/-- C5, witness: a concrete execution with two reporter ticks. -/
theorem c5_stats_monotone_witness :
    MonoTotals (stateSeq initStat
      [.opsInc, .fpsInc, .tick, .opsInc, .tick]) ∧
    ∀ o ∈ runObs initStat [.opsInc, .fpsInc, .tick, .opsInc, .tick],
      o.s ≤ o.tS ∧ o.f ≤ o.tF :=
  c5_stats_monotone [.opsInc, .fpsInc, .tick, .opsInc, .tick] (by decide) (by decide)

/-- C10: every reporter tick computes the window and the cumulative
failure percentage as 100 × failures / attempts in uint64 arithmetic,
and yields 0 rather than a division error whenever the attempt count
is zero, for both the window and the cumulative computation. -/
theorem c10_percentages (evs : List LEvent) (o : TickObs)
    (ho : o ∈ runObs initStat evs) :
    (o.s = 0 → o.perc = 0) ∧
    (0 < o.s → 100 * o.f < u64Mod → o.perc = 100 * o.f / o.s) ∧
    (o.tS = 0 → o.tPerc = 0) ∧
    (0 < o.tS → 100 * o.tF < u64Mod → o.tPerc = 100 * o.tF / o.tS) := by
  obtain ⟨hp, htp⟩ := runObs_shape evs initStat o ho
  refine ⟨?_, ?_, ?_, ?_⟩
  · intro h0
    rw [hp, percent, h0]
    simp
  · intro hpos hov
    rw [hp, percent, if_pos hpos, Nat.mod_eq_of_lt hov]
  · intro h0
    rw [htp, percent, h0]
    simp
  · intro hpos hov
    rw [htp, percent, if_pos hpos, Nat.mod_eq_of_lt hov]

/-- C10, witness: a tick with two attempts and one failure logs 50
percent, and a tick with zero attempts logs 0 for both percentages. -/
theorem c10_percentages_witness :
    (⟨2, 1, 2, 1, 50, 50⟩ : TickObs).perc = 100 * 1 / 2 ∧
    (⟨0, 0, 0, 0, 0, 0⟩ : TickObs).perc = 0 ∧
    (⟨0, 0, 0, 0, 0, 0⟩ : TickObs).tPerc = 0 :=
  ⟨(c10_percentages [.opsInc, .opsInc, .fpsInc, .tick] ⟨2, 1, 2, 1, 50, 50⟩
      (by decide)).2.1 (by decide) (by decide),
   (c10_percentages [.tick] ⟨0, 0, 0, 0, 0, 0⟩ (by decide)).1 rfl,
   (c10_percentages [.tick] ⟨0, 0, 0, 0, 0, 0⟩ (by decide)).2.2.1 rfl⟩

theorem charListLt_asymm : ∀ a b : List Char, charListLt a b = true → charListLt b a = false := by
  intro a
  induction a with
  | nil =>
    intro b h
    cases b with
    | nil => simp [charListLt] at h
    | cons y ys => simp [charListLt]
  | cons x xs ih =>
    intro b h
    cases b with
    | nil => simp [charListLt] at h
    | cons y ys =>
      simp only [charListLt, Bool.or_eq_true, Bool.and_eq_true, beq_iff_eq,
        decide_eq_true_eq] at h
      rcases h with h1 | ⟨heq, h2⟩
      · have hne : (y == x) = false := by
          rw [beq_eq_false_iff_ne]
          intro hcon
          rw [hcon] at h1
          omega
        simp [charListLt, hne]
        omega
      · subst heq
        have hrec := ih ys h2
        simp [charListLt, hrec]

theorem charListLt_trans :
    ∀ a b c : List Char, charListLt a b = true → charListLt b c = true →
      charListLt a c = true := by
  intro a
  induction a with
  | nil =>
    intro b c h1 h2
    cases b with
    | nil => simp [charListLt] at h1
    | cons y ys =>
      cases c with
      | nil => simp [charListLt] at h2
      | cons z zs => simp [charListLt]
  | cons x xs ih =>
    intro b c h1 h2
    cases b with
    | nil => simp [charListLt] at h1
    | cons y ys =>
      cases c with
      | nil => simp [charListLt] at h2
      | cons z zs =>
        simp only [charListLt, Bool.or_eq_true, Bool.and_eq_true, beq_iff_eq,
          decide_eq_true_eq] at h1 h2 ⊢
        rcases h1 with h1 | ⟨rfl, h1⟩
        · rcases h2 with h2 | ⟨rfl, h2⟩
          · left; omega
          · left; exact h1
        · rcases h2 with h2 | ⟨rfl, h2⟩
          · left; exact h2
          · right; exact ⟨rfl, ih ys zs h1 h2⟩

theorem char_eq_of_toNat_eq (a b : Char) (h : a.toNat = b.toNat) : a = b := by
  apply Char.ext
  apply UInt32.ext
  exact h

theorem charListLt_trichotomy :
    ∀ a b : List Char, charListLt a b = true ∨ a = b ∨ charListLt b a = true := by
  intro a
  induction a with
  | nil =>
    intro b
    cases b with
    | nil => right; left; rfl
    | cons y ys => left; simp [charListLt]
  | cons x xs ih =>
    intro b
    cases b with
    | nil => right; right; simp [charListLt]
    | cons y ys =>
      rcases Nat.lt_trichotomy x.toNat y.toNat with h | h | h
      · left
        simp [charListLt]
        omega
      · have hxy : x = y := char_eq_of_toNat_eq x y h
        subst hxy
        rcases ih ys with h2 | h2 | h2
        · left; simp [charListLt, h2]
        · right; left; rw [h2]
        · right; right; simp [charListLt, h2]
      · right; right
        simp [charListLt]
        omega

theorem strLe_of_not (x y : String) (h : strLe x y = false) : strLe y x = true := by
  unfold strLe strLt at h ⊢
  have hlt : charListLt y.data x.data = true := by
    cases hv : charListLt y.data x.data with
    | true => rfl
    | false => rw [hv] at h; simp at h
  rw [charListLt_asymm _ _ hlt]
  rfl

theorem strLe_trans (a b c : String) (h1 : strLe a b = true) (h2 : strLe b c = true) :
    strLe a c = true := by
  unfold strLe strLt at h1 h2 ⊢
  have hba : charListLt b.data a.data = false := by
    cases hv : charListLt b.data a.data with
    | false => rfl
    | true => rw [hv] at h1; simp at h1
  have hcb : charListLt c.data b.data = false := by
    cases hv : charListLt c.data b.data with
    | false => rfl
    | true => rw [hv] at h2; simp at h2
  have hca : charListLt c.data a.data = false := by
    cases hv : charListLt c.data a.data with
    | false => rfl
    | true =>
      rcases charListLt_trichotomy a.data b.data with h3 | h3 | h3
      · have := charListLt_trans c.data a.data b.data hv h3
        rw [this] at hcb
        cases hcb
      · rw [h3] at hv
        rw [hv] at hcb
        cases hcb
      · rw [h3] at hba
        cases hba
  rw [hca]
  rfl

theorem mem_insertSorted (x z : String) :
    ∀ l, z ∈ insertSorted x l ↔ z = x ∨ z ∈ l := by
  intro l
  induction l with
  | nil => simp [insertSorted]
  | cons y rest ih =>
    by_cases hc : strLe x y = true
    · simp [insertSorted, hc]
    · simp only [insertSorted, if_neg hc, List.mem_cons, ih]
      tauto

theorem insertSorted_perm (x : String) : ∀ l, (insertSorted x l).Perm (x :: l) := by
  intro l
  induction l with
  | nil => exact List.Perm.refl _
  | cons y rest ih =>
    by_cases hc : strLe x y = true
    · rw [insertSorted, if_pos hc]
    · rw [insertSorted, if_neg hc]
      exact (ih.cons y).trans (List.Perm.swap x y rest)

theorem sortStrings_perm : ∀ l, (sortStrings l).Perm l := by
  intro l
  induction l with
  | nil => exact List.Perm.refl _
  | cons x rest ih =>
    rw [sortStrings]
    exact (insertSorted_perm x (sortStrings rest)).trans (ih.cons x)

theorem insertSorted_sorted (x : String) :
    ∀ l, List.Pairwise (fun a b => strLe a b = true) l →
      List.Pairwise (fun a b => strLe a b = true) (insertSorted x l) := by
  intro l
  induction l with
  | nil => intro _; simp [insertSorted]
  | cons y rest ih =>
    intro h
    rw [List.pairwise_cons] at h
    obtain ⟨hy, hrest⟩ := h
    by_cases hc : strLe x y = true
    · rw [insertSorted, if_pos hc]
      rw [List.pairwise_cons]
      constructor
      · intro z hz
        rcases List.mem_cons.mp hz with rfl | hz2
        · exact hc
        · exact strLe_trans x y z hc (hy z hz2)
      · rw [List.pairwise_cons]
        exact ⟨hy, hrest⟩
    · rw [insertSorted, if_neg hc]
      rw [List.pairwise_cons]
      constructor
      · intro z hz
        rcases (mem_insertSorted x z rest).mp hz with heq | hz2
        · rw [heq]
          exact strLe_of_not x y (eq_false_of_ne_true hc)
        · exact hy z hz2
      · exact ih hrest

theorem sortStrings_sorted :
    ∀ l, List.Pairwise (fun a b => strLe a b = true) (sortStrings l) := by
  intro l
  induction l with
  | nil => simp [sortStrings]
  | cons x rest ih =>
    rw [sortStrings]
    exact insertSorted_sorted x (sortStrings rest) ih

/-- C6, counterexample to the claim as stated: a sensitive set
installed via SetSensitiveHeaders with the mixed-case entry
Authorization, and an incoming header named exactly Authorization
(which matches that entry case-insensitively, being equal to it), is
not masked: the lookup lowercases the header name but compares it
verbatim against the stored entries, so no non-lowercase entry ever
matches and the secret value stays visible. -/
theorem c6_counterexample :
    hideSensitiveHeadersData (setSensitiveHeaders ["Authorization"])
        [("Authorization", ["secret"])] = ["Authorization: secret"] ∧
    formatHeaders (setSensitiveHeaders ["Authorization"])
        [("Authorization", ["secret"])] "\n" = "Authorization: secret" :=
  ⟨rfl, rfl⟩

/-- C6 (amended): formatHeaders joins the redacted header lines after
sorting them lexicographically (the emitted list is a sorted
permutation of the rendered lines); a header is masked exactly when
its lowercased name is verbatim a member of the sensitive set, so for
sets whose entries are all lowercase — the default set in particular —
masking is case-insensitive in the incoming header name. -/
theorem c6_header_masking (maskSet : List String)
    (headers : List (String × List String)) (sep : String) :
    (formatHeaders maskSet headers sep =
        String.intercalate sep (sortStrings (hideSensitiveHeadersData maskSet headers)) ∧
      List.Pairwise (fun a b => strLe a b = true)
        (sortStrings (hideSensitiveHeadersData maskSet headers)) ∧
      (sortStrings (hideSensitiveHeadersData maskSet headers)).Perm
        (hideSensitiveHeadersData maskSet headers)) ∧
    (∀ n vs, maskSet.contains (strToLower n) = true →
      renderHeader maskSet (n, vs) = n ++ ": ***") ∧
    ((∀ e ∈ maskSet, strToLower e = e) →
      ∀ n vs e, e ∈ maskSet → strToLower n = strToLower e →
        renderHeader maskSet (n, vs) = n ++ ": ***") := by
  refine ⟨⟨rfl, sortStrings_sorted _, sortStrings_perm _⟩, ?_, ?_⟩
  · intro n vs hc
    unfold renderHeader
    rw [if_pos hc]
  · intro hlc n vs e he hlow
    have hc : maskSet.contains (strToLower n) = true := by
      rw [hlow, hlc e he]
      exact List.elem_eq_true_of_mem he
    unfold renderHeader
    rw [if_pos hc]

/-- C6, witness: the default sensitive set masks a mixed-case
X-Auth-Token header. -/
theorem c6_header_masking_witness :
    renderHeader defaultSensitiveHeaders ("X-Auth-Token", ["abc"]) =
      "X-Auth-Token" ++ ": ***" :=
  (c6_header_masking defaultSensitiveHeaders [("X-Auth-Token", ["abc"])] "\n").2.1
    "X-Auth-Token" ["abc"] rfl
